import Mathlib

/-!
# Verification of the yadisk-sync reconciliation algorithm

Shallow embedding of `src/main.py` (isdrmv/yadisk-sync).

The script synchronizes a local backup directory against a remote folder:

* it lists the remote folder; every remote entry of type `"file"` whose name,
  with `".tgz"` appended, is *not* literally present in the local listing is
  deleted; the others are collected into `yadisk_files` (the keep list)
  (`src/main.py` lines 74-84);
* it then walks the local listing; every local name whose
  `file.replace(".tgz", "")` is not in the keep list is uploaded under the
  target name `file.replace(".tgz", "")` (`src/main.py` lines 87-105).

Python's `str.replace` removes **every** (left-to-right, non-overlapping)
occurrence of the pattern, not only a trailing suffix; the embedding
reproduces that semantics exactly (`stripTgzAux`).

The `__main__` guard (lines 118-126) catches `KeyboardInterrupt` and calls
`sys.exit(1)`, and catches any other `Exception`, logs it with a trace, and
then falls off the end of the script (so the interpreter exits with status
0).  It is embedded as the pure dispatch `topLevelGuard` on the outcome of
`main()`.
-/

namespace YadiskSync

/-- Python `file.replace(".tgz", "")` on the character list of the name:
scan left to right; whenever the next four characters are `.tgz`, drop them
and continue after them (no rescan of emitted output, non-overlapping),
otherwise emit the character.  This is exactly CPython's `str.replace`
semantics for a non-empty pattern and empty replacement. -/
def stripTgzAux : List Char → List Char
  | '.' :: 't' :: 'g' :: 'z' :: rest => stripTgzAux rest
  | c :: cs => c :: stripTgzAux cs
  | [] => []

/-- The canonical name of a local file, as computed at `src/main.py` lines
88, 100 and 103: `file.replace(".tgz", "")`. -/
def canonical (s : String) : String := ⟨stripTgzAux s.data⟩

/-- Does the character list contain an occurrence of `.tgz`? -/
def hasTgz : List Char → Bool
  | '.' :: 't' :: 'g' :: 'z' :: _ => true
  | _ :: cs => hasTgz cs
  | [] => false

/-- One entry of the remote listing, as requested at `src/main.py` line 76:
`yadisk.listdir(APP_BACKUPS_DIR, fields=('name', 'type'))`. -/
structure RemoteEntry where
  name : String
  type : String
deriving DecidableEq, Repr

/-- An observable remote-storage mutation performed by `sync`:
`yadisk.remove` (line 79) or `yadisk.upload` (line 98).  An upload records
its remote target path component and the local source file name. -/
inductive Event where
  | delete (name : String)
  | upload (target : String) (source : String)
deriving DecidableEq, Repr

def Event.isDelete : Event → Bool
  | .delete _ => true
  | .upload _ _ => false

def Event.isUpload : Event → Bool
  | .delete _ => false
  | .upload _ _ => true

/-- The remote pass of `sync` (`src/main.py` lines 75-84): walk the remote
listing; skip entries whose type is not `"file"`; delete a file entry whose
name plus `".tgz"` is not literally in the local listing; otherwise append
its name to `yadisk_files`.  Returns the final keep list together with the
delete events in execution order. -/
def remotePass (localFiles : List String) : List RemoteEntry → List String × List Event
  | [] => ([], [])
  | e :: rest =>
    let p := remotePass localFiles rest
    if e.type = "file" then
      if (e.name ++ ".tgz") ∈ localFiles then (e.name :: p.1, p.2)
      else (p.1, Event.delete e.name :: p.2)
    else p

/-- The local pass of `sync` (`src/main.py` lines 87-105): walk the local
listing against the fixed keep list produced by the remote pass; upload
every file whose canonical name is not in it, under the canonical name. -/
def uploadPass (keep : List String) : List String → List Event
  | [] => []
  | f :: rest =>
    if canonical f ∈ keep then uploadPass keep rest
    else Event.upload (canonical f) f :: uploadPass keep rest

/-- One reconciliation run (`sync`, `src/main.py` lines 67-107) on a local
listing snapshot and a remote listing snapshot: the remote pass runs to
completion, then the local pass; the result is the sequence of remote
mutations in execution order. -/
def sync (localFiles : List String) (remote : List RemoteEntry) : List Event :=
  (remotePass localFiles remote).2 ++ uploadPass (remotePass localFiles remote).1 localFiles

/-- The keep list of a run (`yadisk_files` after the remote pass). -/
def keepSet (localFiles : List String) (remote : List RemoteEntry) : List String :=
  (remotePass localFiles remote).1

/-- The target path components of the upload events of an event list. -/
def targetsOf (evs : List Event) : List String :=
  evs.filterMap fun e => match e with
    | .upload t _ => some t
    | .delete _ => none

/-- The names deleted by a run. -/
def deleteNames (localFiles : List String) (remote : List RemoteEntry) : List String :=
  (remotePass localFiles remote).2.filterMap fun e => match e with
    | .delete n => some n
    | .upload _ _ => none

/-- The remote target names the run uploads to. -/
def uploadTargets (localFiles : List String) (remote : List RemoteEntry) : List String :=
  targetsOf (uploadPass (keepSet localFiles remote) localFiles)

/-- The remote listing after a completed run: non-file entries are
untouched, kept file entries survive, and every upload target exists as a
file (uploads overwrite, `src/main.py` line 98 and spec section 6). -/
def runResult (localFiles : List String) (remote : List RemoteEntry) : List RemoteEntry :=
  remote.filter (fun e => e.type ≠ "file")
    ++ (keepSet localFiles remote).map (fun n => ⟨n, "file"⟩)
    ++ (uploadTargets localFiles remote).map (fun n => ⟨n, "file"⟩)

/-- Remote content state: maps a name to the local source name whose bytes
it holds, `none` when absent.  `content` gives the bytes of a local source
(abstracted as a number). -/
def applyEvent (content : String → Nat) (store : String → Option Nat) :
    Event → String → Option Nat
  | .delete n, t => if t = n then none else store t
  | .upload tgt src, t => if t = tgt then some (content src) else store t

/-- Apply a run's mutations to a remote content state, in order. -/
def applyEvents (content : String → Nat) (evs : List Event)
    (store : String → Option Nat) : String → Option Nat :=
  evs.foldl (fun st e => applyEvent content st e) store

/-- What the spec's words for canonicalization describe: remove the
`".tgz"` suffix once, at the end of the name, and only there; a name not
ending in the suffix is unchanged.  (Stated for comparison with
`canonical`, which embeds the source.) -/
def specCanonical (s : String) : String :=
  if 4 ≤ s.data.length ∧ s.data.drop (s.data.length - 4) = ['.', 't', 'g', 'z'] then
    ⟨s.data.take (s.data.length - 4)⟩
  else s

/-- Outcome of `main()` as seen by the `__main__` guard
(`src/main.py` lines 118-126). -/
inductive Outcome where
  | ok
  | interrupted
  | failed (message : String)

/-- What the process reports on exit: its exit status and whether a stack
trace was written to the log. -/
structure ExitReport where
  exitCode : Nat
  stackTraceLogged : Bool
deriving DecidableEq, Repr

/-- The `__main__` guard (`src/main.py` lines 118-126): a
`KeyboardInterrupt` reaches `sys.exit(1)` with no trace logged; any other
`Exception` is caught, `logging.exception` writes the trace, and control
falls off the end of the script, so the interpreter exits with status 0;
a normal return also exits with status 0. -/
def topLevelGuard : Outcome → ExitReport
  | .ok => ⟨0, false⟩
  | .interrupted => ⟨1, false⟩
  | .failed _ => ⟨0, true⟩

/-! ## Basic lemmas about canonicalization -/

/-- Unfolding `stripTgzAux` when the head of the list does not start an
occurrence of `.tgz`. -/
theorem strip_cons_of_ne (c : Char) (cs : List Char)
    (h : ¬(c = '.' ∧ cs.take 3 = ['t', 'g', 'z'])) :
    stripTgzAux (c :: cs) = c :: stripTgzAux cs := by
  rw [stripTgzAux.eq_def]
  split
  · next rest heq =>
      injection heq with h1 h2
      subst h1
      exact absurd ⟨rfl, by rw [h2]; rfl⟩ h
  · next a c' cs' hne heq =>
      injection heq with h1 h2
      subst h1; subst h2
      rfl
  · next heq => exact absurd heq (by simp)

/-- Unfolding `hasTgz` into a head test and a tail test. -/
theorem hasTgz_cons (c : Char) (cs : List Char) :
    hasTgz (c :: cs) = (decide (c = '.' ∧ cs.take 3 = ['t', 'g', 'z']) || hasTgz cs) := by
  by_cases h : c = '.' ∧ cs.take 3 = ['t', 'g', 'z']
  · obtain ⟨h1, h2⟩ := h
    subst h1
    rcases cs with _ | ⟨a, _ | ⟨b, _ | ⟨d, rest⟩⟩⟩ <;> simp at h2
    obtain ⟨ha, hb, hd⟩ := h2
    subst ha; subst hb; subst hd
    simp [hasTgz]
  · rw [hasTgz.eq_def]
    split
    · next heq =>
        injection heq with h1 h2
        exact absurd ⟨h1, by rw [h2]; rfl⟩ h
    · next a c' cs' hne heq =>
        injection heq with h1 h2
        subst h1; subst h2
        simp [h]
    · next heq => exact absurd heq (by simp)

/-- A name with no occurrence of `.tgz` is unchanged by `stripTgzAux`. -/
theorem strip_of_not_hasTgz (l : List Char) (h : hasTgz l = false) :
    stripTgzAux l = l := by
  induction l with
  | nil => rfl
  | cons c cs ih =>
    rw [hasTgz_cons] at h
    simp only [Bool.or_eq_false_iff, decide_eq_false_iff_not] at h
    rw [strip_cons_of_ne c cs h.1, ih h.2]

/-- Appending `.tgz` to an occurrence-free stem and stripping gives the
stem back: no occurrence of `.tgz` can span the boundary. -/
theorem strip_append_tgz (l : List Char) (h : hasTgz l = false) :
    stripTgzAux (l ++ ['.', 't', 'g', 'z']) = l := by
  induction l with
  | nil => rfl
  | cons c cs ih =>
    rw [hasTgz_cons] at h
    simp only [Bool.or_eq_false_iff, decide_eq_false_iff_not] at h
    have hb : ¬(c = '.' ∧ (cs ++ ['.', 't', 'g', 'z']).take 3 = ['t', 'g', 'z']) := by
      rintro ⟨h1, h2⟩
      rcases cs with _ | ⟨a, _ | ⟨b, _ | ⟨d, rest⟩⟩⟩
      · simp at h2
      · simp at h2
      · simp at h2
      · exact h.1 ⟨h1, by simpa using h2⟩
    rw [List.cons_append, strip_cons_of_ne c _ hb, ih h.2]

/-! ## Lemmas about the two passes of `sync` -/

/-- A name is in the keep list iff some remote file entry carries it and
its name with `.tgz` appended is literally in the local listing. -/
theorem mem_keepSet_iff (L : List String) (R : List RemoteEntry) (n : String) :
    n ∈ keepSet L R ↔ ∃ e ∈ R, e.type = "file" ∧ e.name = n ∧ (n ++ ".tgz") ∈ L := by
  induction R with
  | nil => simp [keepSet, remotePass]
  | cons e R ih =>
    simp only [keepSet, remotePass] at ih ⊢
    by_cases h1 : e.type = "file"
    · by_cases h2 : (e.name ++ ".tgz") ∈ L
      · simp only [h1, h2, if_true, List.mem_cons, ih]
        constructor
        · rintro (rfl | ⟨e', he', hf, rfl, hm⟩)
          · exact ⟨e, Or.inl rfl, h1, rfl, h2⟩
          · exact ⟨e', Or.inr he', hf, rfl, hm⟩
        · rintro ⟨e', rfl | he', hf, rfl, hm⟩
          · exact Or.inl rfl
          · exact Or.inr ⟨e', he', hf, rfl, hm⟩
      · simp only [h1, h2, if_true, if_false, ih]
        constructor
        · rintro ⟨e', he', hf, rfl, hm⟩
          exact ⟨e', List.mem_cons_of_mem _ he', hf, rfl, hm⟩
        · rintro ⟨e', he', hf, rfl, hm⟩
          rcases List.mem_cons.mp he' with heq | he2
          · exact absurd (heq ▸ hm) h2
          · exact ⟨e', he2, hf, rfl, hm⟩
    · simp only [h1, if_false, ih]
      constructor
      · rintro ⟨e', he', hf, rfl, hm⟩
        exact ⟨e', List.mem_cons_of_mem _ he', hf, rfl, hm⟩
      · rintro ⟨e', he', hf, rfl, hm⟩
        rcases List.mem_cons.mp he' with heq | he2
        · exact absurd (heq ▸ hf) h1
        · exact ⟨e', he2, hf, rfl, hm⟩

/-- A delete event is issued iff some remote file entry carries the name
and its name with `.tgz` appended is missing from the local listing. -/
theorem delete_mem_remotePass_iff (L : List String) (R : List RemoteEntry) (n : String) :
    Event.delete n ∈ (remotePass L R).2 ↔
      ∃ e ∈ R, e.type = "file" ∧ e.name = n ∧ (n ++ ".tgz") ∉ L := by
  induction R with
  | nil => simp [remotePass]
  | cons e R ih =>
    simp only [remotePass] at ih ⊢
    by_cases h1 : e.type = "file"
    · by_cases h2 : (e.name ++ ".tgz") ∈ L
      · simp only [h1, h2, if_true, ih]
        constructor
        · rintro ⟨e', he', hf, rfl, hm⟩
          exact ⟨e', List.mem_cons_of_mem _ he', hf, rfl, hm⟩
        · rintro ⟨e', he', hf, rfl, hm⟩
          rcases List.mem_cons.mp he' with heq | he2
          · exact absurd (heq.symm ▸ h2) hm
          · exact ⟨e', he2, hf, rfl, hm⟩
      · simp only [h1, h2, if_true, if_false, List.mem_cons, Event.delete.injEq, ih]
        constructor
        · rintro (rfl | ⟨e', he', hf, rfl, hm⟩)
          · exact ⟨e, Or.inl rfl, h1, rfl, h2⟩
          · exact ⟨e', Or.inr he', hf, rfl, hm⟩
        · rintro ⟨e', rfl | he', hf, rfl, hm⟩
          · exact Or.inl rfl
          · exact Or.inr ⟨e', he', hf, rfl, hm⟩
    · simp only [h1, if_false, ih]
      constructor
      · rintro ⟨e', he', hf, rfl, hm⟩
        exact ⟨e', List.mem_cons_of_mem _ he', hf, rfl, hm⟩
      · rintro ⟨e', he', hf, rfl, hm⟩
        rcases List.mem_cons.mp he' with heq | he2
        · exact absurd (heq ▸ hf) h1
        · exact ⟨e', he2, hf, rfl, hm⟩

/-- Every event of the remote pass is a deletion. -/
theorem remotePass_events_delete (L : List String) (R : List RemoteEntry) :
    ∀ ev ∈ (remotePass L R).2, ev.isDelete = true := by
  induction R with
  | nil => simp [remotePass]
  | cons e R ih =>
    simp only [remotePass]
    by_cases h1 : e.type = "file"
    · by_cases h2 : (e.name ++ ".tgz") ∈ L
      · simpa [h1, h2] using ih
      · simp only [h1, h2, if_true, if_false, List.mem_cons]
        rintro ev (rfl | hm)
        · rfl
        · exact ih ev hm
    · simpa [h1] using ih

/-- Every event of the local pass is an upload. -/
theorem uploadPass_events_upload (k L : List String) :
    ∀ ev ∈ uploadPass k L, ev.isUpload = true := by
  induction L with
  | nil => simp [uploadPass]
  | cons f L ih =>
    simp only [uploadPass]
    by_cases h : canonical f ∈ k
    · simpa [h] using ih
    · simp only [h, if_false, List.mem_cons]
      rintro ev (rfl | hm)
      · rfl
      · exact ih ev hm

/-- `targetsOf` on a leading upload event. -/
theorem targetsOf_cons_upload (t s : String) (evs : List Event) :
    targetsOf (Event.upload t s :: evs) = t :: targetsOf evs := rfl

/-- `targetsOf` on a leading delete event. -/
theorem targetsOf_cons_delete (n : String) (evs : List Event) :
    targetsOf (Event.delete n :: evs) = targetsOf evs := rfl

/-- Target names of the local pass: exactly the canonical names of local
files that are not in the keep list. -/
theorem mem_targets_uploadPass_iff (k L : List String) (t : String) :
    t ∈ targetsOf (uploadPass k L) ↔ ∃ l ∈ L, canonical l = t ∧ t ∉ k := by
  induction L with
  | nil => simp [uploadPass, targetsOf]
  | cons f L ih =>
    simp only [uploadPass]
    by_cases h : canonical f ∈ k
    · rw [if_pos h, ih]
      constructor
      · rintro ⟨l, hl, rfl, hk⟩
        exact ⟨l, List.mem_cons_of_mem _ hl, rfl, hk⟩
      · rintro ⟨l, hl, rfl, hk⟩
        rcases List.mem_cons.mp hl with heq | hl2
        · exact absurd (heq.symm ▸ h) hk
        · exact ⟨l, hl2, rfl, hk⟩
    · rw [if_neg h, targetsOf_cons_upload]
      constructor
      · intro hm
        rcases List.mem_cons.mp hm with rfl | hm2
        · exact ⟨f, List.mem_cons_self f L, rfl, h⟩
        · obtain ⟨l, hl, rfl, hk⟩ := ih.mp hm2
          exact ⟨l, List.mem_cons_of_mem _ hl, rfl, hk⟩
      · rintro ⟨l, hl, rfl, hk⟩
        rcases List.mem_cons.mp hl with heq | hl2
        · exact List.mem_cons.mpr (Or.inl (by rw [heq]))
        · exact List.mem_cons.mpr (Or.inr (ih.mpr ⟨l, hl2, rfl, hk⟩))

/-- The local pass never issues a delete event. -/
theorem delete_not_mem_uploadPass (k L : List String) (n : String) :
    Event.delete n ∉ uploadPass k L := by
  intro hm
  have := uploadPass_events_upload k L _ hm
  simp [Event.isUpload] at this

/-- Coverage of the local pass: every local file's canonical name is in the
keep list or among the upload targets. -/
theorem uploadPass_cover (k L : List String) (l : String) (hl : l ∈ L) :
    canonical l ∈ k ∨ canonical l ∈ targetsOf (uploadPass k L) := by
  by_cases h : canonical l ∈ k
  · exact Or.inl h
  · exact Or.inr ((mem_targets_uploadPass_iff k L _).mpr ⟨l, hl, rfl, h⟩)

/-- If every local canonical name is in the keep list, the local pass does
nothing. -/
theorem uploadPass_eq_nil (k L : List String) (h : ∀ f ∈ L, canonical f ∈ k) :
    uploadPass k L = [] := by
  induction L with
  | nil => rfl
  | cons f L ih =>
    simp only [uploadPass, h f (List.mem_cons_self f L), if_true]
    exact ih fun g hg => h g (List.mem_cons_of_mem _ hg)

/-- If no local canonical name is in the keep list, everything is uploaded,
in listing order. -/
theorem uploadPass_all (k L : List String) (h : ∀ f ∈ L, canonical f ∉ k) :
    uploadPass k L = L.map fun f => Event.upload (canonical f) f := by
  induction L with
  | nil => rfl
  | cons f L ih =>
    simp only [uploadPass, h f (List.mem_cons_self f L), if_false, List.map_cons]
    rw [ih fun g hg => h g (List.mem_cons_of_mem _ hg)]

/-- The remote pass distributes over appended listings. -/
theorem remotePass_append (L : List String) (R₁ R₂ : List RemoteEntry) :
    remotePass L (R₁ ++ R₂) =
      ((remotePass L R₁).1 ++ (remotePass L R₂).1,
       (remotePass L R₁).2 ++ (remotePass L R₂).2) := by
  induction R₁ with
  | nil => simp [remotePass]
  | cons e R ih =>
    simp only [List.cons_append, remotePass, ih]
    by_cases h1 : e.type = "file"
    · by_cases h2 : (e.name ++ ".tgz") ∈ L
      · simp [h1, h2, ih]
      · simp [h1, h2, ih]
    · simp [h1, ih]

/-- A listing with no file-type entries contributes nothing to either pass. -/
theorem remotePass_all_nonfile (L : List String) (R : List RemoteEntry)
    (h : ∀ e ∈ R, e.type ≠ "file") : remotePass L R = ([], []) := by
  induction R with
  | nil => rfl
  | cons e R ih =>
    simp only [remotePass, h e (List.mem_cons_self e R), if_false]
    exact ih fun e' he' => h e' (List.mem_cons_of_mem _ he')

/-- A listing of file entries that all have a literal local match is kept
entirely, with no deletions. -/
theorem remotePass_all_matched (L : List String) (ns : List String)
    (h : ∀ n ∈ ns, (n ++ ".tgz") ∈ L) :
    remotePass L (ns.map fun n => (⟨n, "file"⟩ : RemoteEntry)) = (ns, []) := by
  induction ns with
  | nil => rfl
  | cons n ns ih =>
    simp only [List.map_cons, remotePass, h n (List.mem_cons_self n ns), if_true]
    rw [ih fun m hm => h m (List.mem_cons_of_mem _ hm)]

/-- Names deleted by a run, characterized. -/
theorem mem_deleteNames_iff (L : List String) (R : List RemoteEntry) (n : String) :
    n ∈ deleteNames L R ↔
      ∃ e ∈ R, e.type = "file" ∧ e.name = n ∧ (n ++ ".tgz") ∉ L := by
  rw [← delete_mem_remotePass_iff]
  simp only [deleteNames, List.mem_filterMap]
  constructor
  · rintro ⟨ev, hm, hev⟩
    match ev, hev with
    | .delete m, hev =>
      simp only [Option.some.injEq] at hev
      exact hev ▸ hm
  · intro hm
    exact ⟨Event.delete n, hm, rfl⟩

/-- Upload target names of a run, characterized. -/
theorem mem_uploadTargets_iff (L : List String) (R : List RemoteEntry) (t : String) :
    t ∈ uploadTargets L R ↔ ∃ l ∈ L, canonical l = t ∧ t ∉ keepSet L R :=
  mem_targets_uploadPass_iff (keepSet L R) L t

example : canonical "a.tgz" = "a" := by decide
example : canonical "a.tgz.tgz" = "a" := by decide
example : canonical ".t.tgzgz" = ".tgz" := by decide
example : canonical "d" = "d" := by decide
example : sync ["d"] [⟨"d", "file"⟩] = [.delete "d", .upload "d" "d"] := by decide
example : sync ["a.tgz"] [⟨"a", "file"⟩, ⟨"c", "file"⟩] = [.delete "c"] := by decide

/-- `sync` is the remote pass followed by the local pass. -/
theorem sync_eq (L : List String) (R : List RemoteEntry) :
    sync L R = (remotePass L R).2 ++ uploadPass (remotePass L R).1 L := rfl

/-! ## Claims -/

/-- C1 (counterexample): canonicalization is not suffix removal.  On
`"a.tgz.tgz"` the code yields `"a"` while removing the suffix once at the
end yields `"a.tgz"`; and `"a.tgz.txt"` does not end in the suffix, yet the
code changes it to `"a.txt"` instead of leaving it alone. -/
theorem canonical_not_suffix_strip :
    canonical "a.tgz.tgz" ≠ specCanonical "a.tgz.tgz" ∧
    canonical "a.tgz.txt" ≠ "a.tgz.txt" := by
  constructor
  · decide
  · decide

/-- C1 (amended): canonicalization removes every occurrence of the
substring `".tgz"` (left-to-right, non-overlapping), not only a trailing
suffix.  On a name made of a `.tgz`-free stem followed by the suffix it
yields the stem, and a name with no occurrence at all is unchanged. -/
theorem canonical_tgzFree_strip (s : String) (h : hasTgz s.data = false) :
    canonical (s ++ ".tgz") = s ∧ canonical s = s := by
  constructor
  · show (⟨stripTgzAux (s ++ ".tgz").data⟩ : String) = s
    rw [String.data_append]
    have hd : (".tgz" : String).data = ['.', 't', 'g', 'z'] := rfl
    rw [hd, strip_append_tgz s.data h]
  · show (⟨stripTgzAux s.data⟩ : String) = s
    rw [strip_of_not_hasTgz s.data h]

/-- C1 (witness): the amended statement at the stem `"ab"`. -/
theorem canonical_tgzFree_strip_witness :
    canonical ("ab" ++ ".tgz") = "ab" ∧ canonical "ab" = "ab" :=
  canonical_tgzFree_strip "ab" (by decide)

/-- C2 (counterexample): the name `"d"` is both deleted and used as an
upload target in the run on local `["d"]`, remote `[d (file)]`: the delete
test appends `".tgz"` (`"d.tgz" ∉ local`, so `d` is deleted) while the
upload test strips it (`canonical "d" = "d" ∉ keep`, so `d` is uploaded). -/
theorem deleteSet_not_disjoint_uploadTargets :
    "d" ∈ deleteNames ["d"] [⟨"d", "file"⟩] ∧
    "d" ∈ uploadTargets ["d"] [⟨"d", "file"⟩] := by
  constructor
  · decide
  · decide

/-- C2 (amended): provided every local file name consists of its canonical
name followed by the `".tgz"` suffix, the set of names the run deletes is
disjoint from the set of canonical names it uploads to. -/
theorem deleteSet_disjoint_uploadTargets (L : List String) (R : List RemoteEntry)
    (hL : ∀ l ∈ L, canonical l ++ ".tgz" = l) (n : String)
    (hd : n ∈ deleteNames L R) : n ∉ uploadTargets L R := by
  intro hu
  obtain ⟨l, hl, rfl, -⟩ := (mem_uploadTargets_iff L R n).mp hu
  obtain ⟨e, he, hf, hn, hm⟩ := (mem_deleteNames_iff L R _).mp hd
  exact hm ((hL l hl).symm ▸ hl)

/-- C2 (witness): the amended statement on local `["a.tgz"]`, remote
`[b (file)]`, where `"b"` is deleted. -/
theorem deleteSet_disjoint_uploadTargets_witness :
    "b" ∉ uploadTargets ["a.tgz"] [⟨"b", "file"⟩] :=
  deleteSet_disjoint_uploadTargets ["a.tgz"] [⟨"b", "file"⟩] (by decide) "b" (by decide)

/-- C3 (counterexample): feeding the result of the run on local `["d"]`,
remote `[]` back into a second run is not a no-op: the second run deletes
`"d"` and re-uploads it. -/
theorem sync_not_idempotent : sync ["d"] (runResult ["d"] []) ≠ [] := by decide

/-- C3 (amended): provided every local file name consists of its canonical
name followed by the `".tgz"` suffix, a second run on the remote listing
produced by a completed run and the unchanged local listing performs no
deletion and no upload. -/
theorem sync_idempotent (L : List String) (R : List RemoteEntry)
    (hL : ∀ l ∈ L, canonical l ++ ".tgz" = l) :
    sync L (runResult L R) = [] := by
  have hF : remotePass L (R.filter fun e => e.type ≠ "file") = ([], []) := by
    refine remotePass_all_nonfile L _ fun e he => ?_
    have := List.mem_filter.mp he
    simpa using this.2
  have hK : remotePass L ((keepSet L R).map fun n => (⟨n, "file"⟩ : RemoteEntry)) =
      (keepSet L R, []) := by
    refine remotePass_all_matched L _ fun n hn => ?_
    obtain ⟨e, -, -, -, hm⟩ := (mem_keepSet_iff L R n).mp hn
    exact hm
  have hT : remotePass L ((uploadTargets L R).map fun n => (⟨n, "file"⟩ : RemoteEntry)) =
      (uploadTargets L R, []) := by
    refine remotePass_all_matched L _ fun t ht => ?_
    obtain ⟨l, hl, rfl, -⟩ := (mem_uploadTargets_iff L R t).mp ht
    exact (hL l hl).symm ▸ hl
  have hpass : remotePass L (runResult L R) =
      (keepSet L R ++ uploadTargets L R, []) := by
    rw [runResult, remotePass_append, remotePass_append, hF, hK, hT]
    simp
  rw [sync_eq, hpass]
  simp only [List.nil_append]
  refine uploadPass_eq_nil _ L fun f hf => ?_
  rcases uploadPass_cover (keepSet L R) L f hf with h | h
  · exact List.mem_append.mpr (Or.inl h)
  · exact List.mem_append.mpr (Or.inr h)

/-- C3 (witness): the amended statement on local `["a.tgz"]`, remote `[]`. -/
theorem sync_idempotent_witness : sync ["a.tgz"] (runResult ["a.tgz"] []) = [] :=
  sync_idempotent ["a.tgz"] [] (by decide)

/-- C4 (counterexample): the local file `"d"` has canonical name `"d"`,
equal to the remote file name `"d"`, yet the run deletes the remote file:
the deletion test matches on the literal name plus `".tgz"`, not on the
canonical name. -/
theorem canonical_match_not_kept :
    canonical "d" = "d" ∧ Event.delete "d" ∈ sync ["d"] [⟨"d", "file"⟩] := by
  constructor
  · decide
  · decide

/-- C4 (amended): a remote file is kept iff the local listing contains its
name with `".tgz"` appended literally; kept names are never upload
targets; every other remote file is deleted. -/
theorem keep_iff_literal_match (L : List String) (R : List RemoteEntry) (n : String) :
    (n ∈ keepSet L R ↔
        (∃ e ∈ R, e.type = "file" ∧ e.name = n) ∧ (n ++ ".tgz") ∈ L) ∧
    (n ∈ keepSet L R → n ∉ uploadTargets L R) ∧
    (Event.delete n ∈ sync L R ↔
        (∃ e ∈ R, e.type = "file" ∧ e.name = n) ∧ (n ++ ".tgz") ∉ L) := by
  refine ⟨?_, ?_, ?_⟩
  · rw [mem_keepSet_iff]
    constructor
    · rintro ⟨e, he, hf, rfl, hm⟩
      exact ⟨⟨e, he, hf, rfl⟩, hm⟩
    · rintro ⟨⟨e, he, hf, rfl⟩, hm⟩
      exact ⟨e, he, hf, rfl, hm⟩
  · intro hk hu
    obtain ⟨l, -, rfl, hnk⟩ := (mem_uploadTargets_iff L R n).mp hu
    exact hnk hk
  · rw [sync_eq, List.mem_append]
    constructor
    · rintro (hm | hm)
      · obtain ⟨e, he, hf, rfl, hnm⟩ := (delete_mem_remotePass_iff L R n).mp hm
        exact ⟨⟨e, he, hf, rfl⟩, hnm⟩
      · exact absurd hm (delete_not_mem_uploadPass _ L n)
    · rintro ⟨⟨e, he, hf, rfl⟩, hnm⟩
      exact Or.inl ((delete_mem_remotePass_iff L R _).mpr ⟨e, he, hf, rfl, hnm⟩)

/-- C4 (witness): on local `["a.tgz"]`, remote `[a (file)]`, the kept name
`"a"` is not an upload target. -/
theorem keep_iff_literal_match_witness :
    "a" ∉ uploadTargets ["a.tgz"] [⟨"a", "file"⟩] :=
  (keep_iff_literal_match ["a.tgz"] [⟨"a", "file"⟩] "a").2.1 (by decide)

/-- C5 (counterexample): after the run on local `["a.tgz.tgz"]`, remote
`[a.tgz (file)]`, the remote file `"a.tgz"` survives (its name plus
`".tgz"` is literally local), yet no local file has canonical name
`"a.tgz"` — the sole local file canonicalizes to `"a"`. -/
theorem purge_leaves_unmatched_name :
    (⟨"a.tgz", "file"⟩ : RemoteEntry) ∈ runResult ["a.tgz.tgz"] [⟨"a.tgz", "file"⟩] ∧
    canonical "a.tgz.tgz" ≠ "a.tgz" := by
  constructor
  · decide
  · decide

/-- C5 (amended): after a completed run, every remote file name either has
a literal local counterpart (its name with `".tgz"` appended is in the
local listing — a survivor) or equals the canonical name of some local
file (a fresh upload). -/
theorem runResult_names_characterized (L : List String) (R : List RemoteEntry)
    (e : RemoteEntry) (he : e ∈ runResult L R) (hf : e.type = "file") :
    (e.name ++ ".tgz") ∈ L ∨ ∃ l ∈ L, canonical l = e.name := by
  rcases List.mem_append.mp he with hm | hm
  · rcases List.mem_append.mp hm with hm2 | hm2
    · have := List.mem_filter.mp hm2
      simp [hf] at this
    · obtain ⟨n, hn, heq⟩ := List.mem_map.mp hm2
      obtain ⟨e', -, -, -, hmem⟩ := (mem_keepSet_iff L R n).mp hn
      exact Or.inl (by rw [← heq]; exact hmem)
  · obtain ⟨n, hn, heq⟩ := List.mem_map.mp hm
    obtain ⟨l, hl, hc, -⟩ := (mem_uploadTargets_iff L R n).mp hn
    exact Or.inr ⟨l, hl, by rw [hc, ← heq]⟩

/-- C5 (witness): the amended statement on local `["a.tgz"]`, remote `[]`,
at the uploaded entry `a`. -/
theorem runResult_names_characterized_witness :
    ("a" ++ ".tgz") ∈ ["a.tgz"] ∨ canonical "a.tgz" = "a" := by
  rcases runResult_names_characterized ["a.tgz"] [] ⟨"a", "file"⟩ (by decide) rfl with
    h | ⟨l, hl, hc⟩
  · exact Or.inl h
  · rw [List.mem_singleton] at hl
    subst hl
    exact Or.inr hc

/-- An event cannot be both a deletion and an upload. -/
theorem event_not_delete_and_upload (ev : Event) (h1 : ev.isDelete = true)
    (h2 : ev.isUpload = true) : False := by
  cases ev <;> simp [Event.isDelete, Event.isUpload] at h1 h2

/-- In a list made of deletions followed by uploads, every deletion index
precedes every upload index. -/
theorem append_delete_before_upload (D U : List Event)
    (hDall : ∀ ev ∈ D, ev.isDelete = true) (hUall : ∀ ev ∈ U, ev.isUpload = true)
    (i j : Nat) (hi : i < (D ++ U).length) (hj : j < (D ++ U).length)
    (hd : ((D ++ U).get ⟨i, hi⟩).isDelete = true)
    (hu : ((D ++ U).get ⟨j, hj⟩).isUpload = true) : i < j := by
  have hlen : (D ++ U).length = D.length + U.length := List.length_append D U
  have hiD : i < D.length := by
    by_contra hc
    push_neg at hc
    have hlt : i - D.length < U.length := by omega
    have e1 : (D ++ U).get ⟨i, hi⟩ = U.get ⟨i - D.length, hlt⟩ := by
      simp only [List.get_eq_getElem]
      exact List.getElem_append_right hc
    have hmem : U.get ⟨i - D.length, hlt⟩ ∈ U := List.get_mem U _ hlt
    rw [e1] at hd
    exact event_not_delete_and_upload _ hd (hUall _ hmem)
  have hjD : D.length ≤ j := by
    by_contra hc
    push_neg at hc
    have e1 : (D ++ U).get ⟨j, hj⟩ = D.get ⟨j, hc⟩ := by
      simp only [List.get_eq_getElem]
      exact List.getElem_append_left hc
    have hmem : D.get ⟨j, hc⟩ ∈ D := List.get_mem D _ hc
    rw [e1] at hu
    exact event_not_delete_and_upload _ (hDall _ hmem) hu
  omega

/-- C6 (confirmed): every deletion of a run occurs strictly before every
upload of the same run — the remote listing is processed (deleting
orphans, building the keep list) before any local file is uploaded. -/
theorem deletes_precede_uploads (L : List String) (R : List RemoteEntry) (i j : Nat)
    (hi : i < (sync L R).length) (hj : j < (sync L R).length)
    (hd : ((sync L R).get ⟨i, hi⟩).isDelete = true)
    (hu : ((sync L R).get ⟨j, hj⟩).isUpload = true) : i < j :=
  append_delete_before_upload (remotePass L R).2 (uploadPass (remotePass L R).1 L)
    (remotePass_events_delete L R) (uploadPass_events_upload _ L) i j hi hj hd hu

/-- C6 (witness): on local `["a.tgz"]`, remote `[b (file)]` the trace is
`[delete b, upload a]`; position 0 is the deletion and 1 the upload. -/
theorem deletes_precede_uploads_witness : (0 : Nat) < 1 :=
  deletes_precede_uploads ["a.tgz"] [⟨"b", "file"⟩] 0 1
    (by decide) (by decide) (by decide) (by decide)

/-- With an empty local listing the remote pass keeps nothing and deletes
every file entry, in listing order. -/
theorem remotePass_nil_local (R : List RemoteEntry) :
    remotePass [] R =
      ([], R.filterMap fun e => if e.type = "file" then some (Event.delete e.name) else none) := by
  induction R with
  | nil => rfl
  | cons e R ih =>
    simp only [remotePass, ih, List.filterMap_cons]
    by_cases h1 : e.type = "file"
    · simp [h1]
    · simp [h1]

/-- C7 (confirmed): empty-set boundaries.  An empty local listing deletes
every remote file entry and uploads nothing; an empty remote listing
deletes nothing and uploads every local file under its canonical name;
both empty is a no-op. -/
theorem sync_empty_boundaries :
    (∀ R : List RemoteEntry, sync [] R =
        R.filterMap fun e => if e.type = "file" then some (Event.delete e.name) else none) ∧
    (∀ L : List String, sync L [] = L.map fun f => Event.upload (canonical f) f) ∧
    sync [] [] = [] := by
  refine ⟨fun R => ?_, fun L => ?_, rfl⟩
  · rw [sync_eq, remotePass_nil_local]
    simp [uploadPass]
  · rw [sync_eq]
    show ([] : List Event) ++ uploadPass [] L = _
    rw [List.nil_append]
    exact uploadPass_all [] L fun f _ => List.not_mem_nil (canonical f)

/-- C8 (counterexample): an ordinary exception reaching the top level is
logged with its trace, but the process then falls off the end of the
script and exits with status 0, not a non-zero status. -/
theorem topLevelGuard_failed_exit_zero :
    (topLevelGuard (Outcome.failed "boom")).stackTraceLogged = true ∧
    (topLevelGuard (Outcome.failed "boom")).exitCode = 0 := ⟨rfl, rfl⟩

/-- C8 (amended): a user interrupt exits with code 1 and no stack trace;
any other exception reaching the top level is caught (not re-raised),
logged with full trace, and the process exits with status 0. -/
theorem topLevelGuard_exit_semantics :
    topLevelGuard Outcome.interrupted = ⟨1, false⟩ ∧
    (∀ m, topLevelGuard (Outcome.failed m) = ⟨0, true⟩) ∧
    topLevelGuard Outcome.ok = ⟨0, false⟩ :=
  ⟨rfl, fun _ => rfl, rfl⟩

/-- C9 (confirmed): two local entries with the same canonical name, with
no remote file of that name, each trigger their own upload to the same
target (the keep list is not updated between uploads), the run completes
without error, and the final remote content under that name is the content
of whichever upload ran last. -/
theorem duplicate_canonical_last_write_wins (n₁ n₂ : String)
    (hc : canonical n₁ = canonical n₂) (R : List RemoteEntry)
    (hR : ∀ e ∈ R, e.name ≠ canonical n₁) :
    uploadPass (keepSet [n₁, n₂] R) [n₁, n₂] =
      [Event.upload (canonical n₁) n₁, Event.upload (canonical n₂) n₂] ∧
    ∀ (content : String → Nat) (store : String → Option Nat),
      applyEvents content (sync [n₁, n₂] R) store (canonical n₁) = some (content n₂) := by
  have hk : canonical n₁ ∉ keepSet [n₁, n₂] R := by
    intro hm
    obtain ⟨e, he, -, hname, -⟩ := (mem_keepSet_iff _ R _).mp hm
    exact hR e he hname
  have hk₂ : canonical n₂ ∉ keepSet [n₁, n₂] R := hc ▸ hk
  have hpass : uploadPass (keepSet [n₁, n₂] R) [n₁, n₂] =
      [Event.upload (canonical n₁) n₁, Event.upload (canonical n₂) n₂] := by
    simp [uploadPass, hk, hk₂]
  refine ⟨hpass, fun content store => ?_⟩
  show applyEvents content
      ((remotePass [n₁, n₂] R).2 ++ uploadPass (keepSet [n₁, n₂] R) [n₁, n₂])
      store (canonical n₁) = some (content n₂)
  rw [hpass, applyEvents, List.foldl_append]
  simp only [List.foldl_cons, List.foldl_nil]
  show applyEvent content _ (Event.upload (canonical n₂) n₂) (canonical n₁) =
    some (content n₂)
  simp [applyEvent, hc]

/-- C9 (witness): the statement at the duplicated listing entry
`"p.tgz"` with empty remote listing. -/
theorem duplicate_canonical_last_write_wins_witness :
    applyEvents (fun _ => 7) (sync ["p.tgz", "p.tgz"] []) (fun _ => none) (canonical "p.tgz") =
      some 7 :=
  (duplicate_canonical_last_write_wins "p.tgz" "p.tgz" rfl [] (by simp)).2
    (fun _ => 7) (fun _ => none)

/-- C10 (confirmed): remote entries whose type is not `"file"` are skipped
entirely: kept names and deleted names always come from file entries, and
a remote listing with no file entries behaves like an empty one — its
names never block an upload. -/
theorem nonfile_entries_skipped :
    (∀ (L : List String) (R : List RemoteEntry) (n : String),
        n ∈ keepSet L R → ∃ e ∈ R, e.type = "file" ∧ e.name = n) ∧
    (∀ (L : List String) (R : List RemoteEntry) (n : String),
        Event.delete n ∈ sync L R → ∃ e ∈ R, e.type = "file" ∧ e.name = n) ∧
    (∀ (L : List String) (R : List RemoteEntry), (∀ e ∈ R, e.type ≠ "file") →
        sync L R = L.map fun f => Event.upload (canonical f) f) := by
  refine ⟨fun L R n hn => ?_, fun L R n hn => ?_, fun L R h => ?_⟩
  · obtain ⟨e, he, hf, hname, -⟩ := (mem_keepSet_iff L R n).mp hn
    exact ⟨e, he, hf, hname⟩
  · rw [sync_eq, List.mem_append] at hn
    rcases hn with hn | hn
    · obtain ⟨e, he, hf, hname, -⟩ := (delete_mem_remotePass_iff L R n).mp hn
      exact ⟨e, he, hf, hname⟩
    · exact absurd hn (delete_not_mem_uploadPass _ L n)
  · rw [sync_eq, remotePass_all_nonfile L R h]
    show ([] : List Event) ++ uploadPass [] L = _
    rw [List.nil_append]
    exact uploadPass_all [] L fun f _ => List.not_mem_nil (canonical f)

/-- C10 (witness): a remote directory named `"d"` does not stop the upload
of the local file `"a.tgz"`. -/
theorem nonfile_entries_skipped_witness :
    sync ["a.tgz"] [⟨"d", "dir"⟩] =
      List.map (fun f => Event.upload (canonical f) f) ["a.tgz"] :=
  nonfile_entries_skipped.2.2 ["a.tgz"] [⟨"d", "dir"⟩] (by decide)

end YadiskSync
